import Mathlib

/-!
# Verification of the `tree-foo` hash chain (`src/main.py`)

The program builds an append-only hash chain over SHA-256.  This file is a
shallow embedding of `src/main.py`:

* a byte string is a `List Nat` with entries `< 256`; a Python `str` is a
  `List Nat` of Unicode code points (which, unlike Lean's `String`, may
  contain lone surrogates — exactly the values `str.encode()` rejects);
* `sha256` below is an executable SHA-256 (FIPS 180-4) over byte lists;
* a `hashlib` hash object is modelled by the byte sequence it has absorbed
  so far: `copy()` duplicates that sequence, `update(bs)` appends `bs`, and
  `digest()` returns `sha256` of it.  This is exact for `hashlib`:
  the digest of a hash object is the hash of everything fed to it;
* a raised `UnicodeEncodeError` is `Option.none` (for `digest`-returning
  operations) and `verify`'s two possible exceptions are an `Except` error.
-/

set_option maxRecDepth 100000

namespace TreeFoo

/-- Truncation to a 32-bit word. -/
def w32 (n : Nat) : Nat := n % 4294967296

/-- Right rotation of a 32-bit word by `n` bits. -/
def rotr (n x : Nat) : Nat := w32 ((x >>> n) + (x <<< (32 - n)))

/-- Bitwise complement within 32 bits (arguments are always `< 2^32`). -/
def not32 (x : Nat) : Nat := 4294967295 - x

/-- The SHA-256 `Ch` function. -/
def ch (e f g : Nat) : Nat := (e &&& f) ^^^ (not32 e &&& g)

/-- The SHA-256 `Maj` function. -/
def maj (a b c : Nat) : Nat := (a &&& b) ^^^ (a &&& c) ^^^ (b &&& c)

/-- The SHA-256 `Σ₀` function. -/
def bigSigma0 (x : Nat) : Nat := rotr 2 x ^^^ rotr 13 x ^^^ rotr 22 x

/-- The SHA-256 `Σ₁` function. -/
def bigSigma1 (x : Nat) : Nat := rotr 6 x ^^^ rotr 11 x ^^^ rotr 25 x

/-- The SHA-256 `σ₀` function. -/
def smallSigma0 (x : Nat) : Nat := rotr 7 x ^^^ rotr 18 x ^^^ (x >>> 3)

/-- The SHA-256 `σ₁` function. -/
def smallSigma1 (x : Nat) : Nat := rotr 17 x ^^^ rotr 19 x ^^^ (x >>> 10)

/-- The 64 SHA-256 round constants. -/
def K : List Nat :=
  [1116352408, 1899447441, 3049323471, 3921009573, 961987163, 1508970993,
   2453635748, 2870763221, 3624381080, 310598401, 607225278, 1426881987,
   1925078388, 2162078206, 2614888103, 3248222580, 3835390401, 4022224774,
   264347078, 604807628, 770255983, 1249150122, 1555081692, 1996064986,
   2554220882, 2821834349, 2952996808, 3210313671, 3336571891, 3584528711,
   113926993, 338241895, 666307205, 773529912, 1294757372, 1396182291,
   1695183700, 1986661051, 2177026350, 2456956037, 2730485921, 2820302411,
   3259730800, 3345764771, 3516065817, 3600352804, 4094571909, 275423344,
   430227734, 506948616, 659060556, 883997877, 958139571, 1322822218,
   1537002063, 1747873779, 1955562222, 2024104815, 2227730452, 2361852424,
   2428436474, 2756734187, 3204031479, 3329325298]

/-- The eight SHA-256 working variables `a`–`h`. -/
structure SHAState where
  a : Nat
  b : Nat
  c : Nat
  d : Nat
  e : Nat
  f : Nat
  g : Nat
  h : Nat
deriving Repr, DecidableEq

/-- The SHA-256 initial hash value `H⁽⁰⁾`. -/
def H0 : SHAState :=
  ⟨1779033703, 3144134277, 1013904242, 2773480762,
   1359893119, 2600822924, 528734635, 1541459225⟩

/-- One SHA-256 round on the working variables, for round constant `kw.1`
and schedule word `kw.2`. -/
def shaRound (st : SHAState) (kw : Nat × Nat) : SHAState :=
  let t1 := st.h + bigSigma1 st.e + ch st.e st.f st.g + kw.1 + kw.2
  let t2 := bigSigma0 st.a + maj st.a st.b st.c
  ⟨w32 (t1 + t2), st.a, st.b, st.c, w32 (st.d + t1), st.e, st.f, st.g⟩

/-- Big-endian bytes of `n`, exactly `k` of them (low byte last). -/
def bytesBE : Nat → Nat → List Nat
  | 0, _ => []
  | k + 1, n => bytesBE k (n / 256) ++ [n % 256]

/-- Group a byte list into big-endian 32-bit words (four bytes per word). -/
def toWords : List Nat → List Nat
  | a :: b :: c :: d :: rest => ((a <<< 24) + (b <<< 16) + (c <<< 8) + d) :: toWords rest
  | _ => []

/-- One step of message-schedule extension; the word list is kept newest
first, so positions 1, 6, 14, 15 are `W[t-2]`, `W[t-7]`, `W[t-15]`,
`W[t-16]`. -/
def nextWord (l : List Nat) : Nat :=
  w32 (smallSigma1 (l.getD 1 0) + l.getD 6 0 + smallSigma0 (l.getD 14 0) + l.getD 15 0)

/-- Extend the (reversed) message schedule by `n` further words. -/
def scheduleAux : Nat → List Nat → List Nat
  | 0, l => l
  | n + 1, l => scheduleAux n (nextWord l :: l)

/-- The 64-entry message schedule of one 64-byte block. -/
def schedule (block : List Nat) : List Nat :=
  (scheduleAux 48 (toWords block).reverse).reverse

/-- SHA-256 compression: process one 64-byte block into the chaining
state. -/
def compress (st : SHAState) (block : List Nat) : SHAState :=
  let r := (K.zip (schedule block)).foldl shaRound st
  ⟨w32 (st.a + r.a), w32 (st.b + r.b), w32 (st.c + r.c), w32 (st.d + r.d),
   w32 (st.e + r.e), w32 (st.f + r.f), w32 (st.g + r.g), w32 (st.h + r.h)⟩

/-- SHA-256 padding: append `0x80`, zeros to 56 mod 64, then the bit length
as eight big-endian bytes. -/
def pad (msg : List Nat) : List Nat :=
  msg ++ 0x80 :: List.replicate ((64 - (msg.length + 9) % 64) % 64) 0
      ++ bytesBE 8 (8 * msg.length)

/-- Split a padded message into 64-byte blocks (`fuel` bounds the
recursion; it is called with the list's length). -/
def blocksAux : Nat → List Nat → List (List Nat)
  | 0, _ => []
  | _, [] => []
  | fuel + 1, l => l.take 64 :: blocksAux fuel (l.drop 64)

/-- Serialize the final chaining state as 32 digest bytes. -/
def stateBytes (st : SHAState) : List Nat :=
  bytesBE 4 st.a ++ bytesBE 4 st.b ++ bytesBE 4 st.c ++ bytesBE 4 st.d ++
  bytesBE 4 st.e ++ bytesBE 4 st.f ++ bytesBE 4 st.g ++ bytesBE 4 st.h

/-- SHA-256 of a byte list: the 32-byte digest. -/
def sha256 (msg : List Nat) : List Nat :=
  let p := pad msg
  stateBytes ((blocksAux p.length p).foldl compress H0)

/-- A Python `str`: its sequence of code points.  Unlike Lean's `String`
it may contain lone surrogates (U+D800–U+DFFF), which are exactly the
code points `str.encode()` refuses. -/
abbrev PyStr := List Nat

/-- A Python `bytes` value: a list of byte values. -/
abbrev Bytes := List Nat

/-- UTF-8 encoding of one code point; `none` for a lone surrogate or a
value above U+10FFFF, where Python's `str.encode()` raises
`UnicodeEncodeError`. -/
def encodeChar (c : Nat) : Option Bytes :=
  if c < 0x80 then some [c]
  else if c < 0x800 then some [0xC0 + c / 64, 0x80 + c % 64]
  else if 0xD800 ≤ c ∧ c ≤ 0xDFFF then none
  else if c < 0x10000 then some [0xE0 + c / 4096, 0x80 + c / 64 % 64, 0x80 + c % 64]
  else if c < 0x110000 then
    some [0xF0 + c / 262144, 0x80 + c / 4096 % 64, 0x80 + c / 64 % 64, 0x80 + c % 64]
  else none

/-- Model of `str.encode()`: UTF-8 bytes of the whole string, `none` when
some code point cannot be encoded. -/
def encode : PyStr → Option Bytes
  | [] => some []
  | c :: s => do
      let b ← encodeChar c
      let bs ← encode s
      pure (b ++ bs)

/-- One hex digit as its ASCII character code (lower case, as
`hexdigest()` prints). -/
def hexChar (d : Nat) : Nat := if d < 10 then 48 + d else 87 + d

/-- Model of `hexdigest()` applied to digest bytes: the hex string as its
list of character codes, two per byte. -/
def hexOfBytes : Bytes → List Nat
  | [] => []
  | b :: bs => hexChar (b / 16) :: hexChar (b % 16) :: hexOfBytes bs

/-- Model of `INIT_HASHER = hashlib.sha256(b"")`: a hash object that has
absorbed the empty byte string, i.e. zero bytes; as an absorbed-bytes
state it is `[]`.  Its finalization `sha256 []` is the digest of the
empty input. -/
def INIT_HASHER : Bytes := []

/-- Model of the `Value` hierarchy of `main.py`: `string` is the `String`
subclass wrapping a Python `str`, and `array` is the `Array` subclass
wrapping a list of `String` values (the constructor's type hint is
`Iterable[String]`), represented by their wrapped strings. -/
inductive Value where
  | string (s : PyStr)
  | array (items : List PyStr)
deriving DecidableEq, Repr

/-- Model of `String.digest`: `hashlib.sha256(self._value.encode()).digest()`;
`none` models the `UnicodeEncodeError` raised by `encode()`. -/
def stringDigest (s : PyStr) : Option Bytes := (encode s).map sha256

/-- One iteration of `Array.digest`'s loop: `hasher.update(v.digest)`,
threading the absorbed-bytes state; `none` when the element's digest
raises. -/
def updateStep (hasher : Bytes) (s : PyStr) : Option Bytes :=
  (stringDigest s).map (hasher ++ ·)

/-- Model of `Value.digest` for both subclasses.  `Array.digest` copies
`INIT_HASHER`, feeds each element's digest into the running hash object
in element order, and finalizes. -/
def Value.digest : Value → Option Bytes
  | .string s => stringDigest s
  | .array items => (items.foldlM updateStep INIT_HASHER).map sha256

/-- Model of `Node`: the absorbed-bytes state of `self._hasher`, the held
`Value` (`self._value`), and the predecessor link (`self._parent`). -/
inductive Node where
  | mk (hasher : Bytes) (value : Value) (parent : Option Node)

/-- The `_hasher` field: the bytes the node's hash object has absorbed. -/
def Node.hasher : Node → Bytes
  | .mk hs _ _ => hs

/-- The `_value` field (the `value` property). -/
def Node.value : Node → Value
  | .mk _ v _ => v

/-- The `_parent` field. -/
def Node.parent : Node → Option Node
  | .mk _ _ p => p

/-- The accumulator a new node starts from: a copy of `INIT_HASHER` when
there is no parent, else a copy of the parent's `_hasher` state. -/
def Node.baseHasher : Option Node → Bytes
  | none => INIT_HASHER
  | some p => p.hasher

/-- Model of `Node.__init__`: copy `INIT_HASHER` (no parent) or the
parent's `_hasher` (so the parent's own hash object is untouched), update
it with `value.digest`, and store value and parent.  `none` models the
`UnicodeEncodeError` escaping from `value.digest`. -/
def Node.init (value : Value) (parent : Option Node) : Option Node :=
  value.digest.map fun d => Node.mk (Node.baseHasher parent ++ d) value parent

/-- The raw cumulative digest bytes of a node: the finalization of its
stored hash object. -/
def Node.storedDigest (n : Node) : Bytes := sha256 n.hasher

/-- Model of the `Node.hash` property: `self._hasher.hexdigest()`. -/
def Node.hash (n : Node) : List Nat := hexOfBytes n.storedDigest

/-- The chain from the oldest node up to this node, oldest first — the
`ancestors` list `Tree.verify` builds with `insert(0, node)`. -/
def Node.ancestors : Node → List Node
  | .mk hs v none => [.mk hs v none]
  | .mk hs v (some p) => p.ancestors ++ [.mk hs v (some p)]

/-- Number of nodes in the chain ending at this node. -/
def Node.count : Node → Nat
  | .mk _ _ none => 1
  | .mk _ _ (some p) => p.count + 1

/-- Model of `Tree`: holds `self._root`, the tail node (or `None`). -/
structure Tree where
  root : Option Node

/-- A freshly constructed `Tree()` (class attribute `_root = None`). -/
def Tree.empty : Tree := ⟨none⟩

/-- Model of `Tree.append`: `self._root = Node(value, parent=self.root)`. -/
def Tree.append (t : Tree) (v : Value) : Option Tree :=
  (Node.init v t.root).map fun n => ⟨some n⟩

/-- Model of `Tree.from_iter`: start from an empty tree and append each
value in order. -/
def Tree.from_iter (vs : List Value) : Option Tree :=
  vs.foldlM Tree.append Tree.empty

/-- The accumulator a child of this tree's tail starts from: `INIT_HASHER`
for an empty tree, else the tail's `_hasher` state. -/
def Tree.acc (t : Tree) : Bytes := Node.baseHasher t.root

/-- All nodes of the tree, oldest first (`verify`'s `ancestors` list). -/
def Tree.nodes (t : Tree) : List Node :=
  match t.root with
  | none => []
  | some n => n.ancestors

/-- The values held by the chain, oldest first. -/
def Tree.values (t : Tree) : List Value := t.nodes.map Node.value

/-- Number of nodes in the chain. -/
def Tree.count (t : Tree) : Nat :=
  match t.root with
  | none => 0
  | some n => n.count

/-- The two exceptions `Tree.verify` can raise: `UnicodeEncodeError`
propagating out of a `digest` recomputation, and the `AssertionError` of
the integrity check. -/
inductive PyError where
  | unicodeEncodeError
  | assertionError
deriving DecidableEq, Repr

/-- One iteration of `verify`'s recomputation loop:
`hasher.update(node.value.digest)`, which raises `UnicodeEncodeError` when
the value no longer encodes. -/
def verifyStep (hasher : Bytes) (n : Node) : Except PyError Bytes :=
  match n.value.digest with
  | none => Except.error PyError.unicodeEncodeError
  | some d => Except.ok (hasher ++ d)

/-- Model of `Tree.verify`: collect the ancestors oldest first, recompute
the cumulative digest from scratch from the node values only (a fresh
copy of `INIT_HASHER` updated with each value's digest), and, when a tail
exists, assert that the recomputed `hexdigest()` equals the tail's
stored `hash`. -/
def Tree.verify (t : Tree) : Except PyError Unit := do
  let hasher ← t.nodes.foldlM verifyStep INIT_HASHER
  match t.root with
  | none => Except.ok ()
  | some n =>
      if hexOfBytes (sha256 hasher) = n.hash then Except.ok ()
      else Except.error PyError.assertionError

/-- The digest `verify` recomputes from scratch: the hash of the
concatenated value digests, oldest first; `none` when some embedded value
no longer encodes. -/
def Tree.recomputedDigest (t : Tree) : Option Bytes :=
  (t.values.mapM Value.digest).map fun ds => sha256 ds.flatten

/-- Code points of `"foo"`. -/
def strFoo : PyStr := [102, 111, 111]

/-- Code points of `"bar"`. -/
def strBar : PyStr := [98, 97, 114]

/-- Code points of `"baz"`. -/
def strBaz : PyStr := [98, 97, 122]

/-- Code points of `"quux"`. -/
def strQuux : PyStr := [113, 117, 117, 120]

/-- Code points of `"x"`. -/
def strX : PyStr := [120]

/-- The demo chain of `__main__`:
`Tree.from_iter([String("foo"), Array([String("bar"), String("baz")])])`. -/
def demoTree : Option Tree :=
  Tree.from_iter [.string strFoo, .array [strBar, strBaz]]

/-- Model of the demo mutation `tree.root._value._value[0] = String("quux")`:
replace the first element of the tail node's `Array` value in place,
leaving the stored `_hasher` (and every other field) untouched.  It is
only ever applied to the demo tree, whose tail value is a two-element
`Array`. -/
def Tree.mutateTailItem0 (t : Tree) (s : PyStr) : Tree :=
  match t.root with
  | none => t
  | some (.mk hs v p) =>
      ⟨some (.mk hs (match v with
                     | .array (_ :: rest) => .array (s :: rest)
                     | other => other) p)⟩

/-- The stored cumulative digest of the tail node of an optional tree
(`none` when the tree is absent or empty). -/
def tailStoredDigest (t : Option Tree) : Option Bytes :=
  t.bind fun t' => t'.root.map Node.storedDigest

/-- The stored cumulative digest of the tail node's predecessor. -/
def tailParentStoredDigest (t : Option Tree) : Option Bytes :=
  t.bind fun t' => t'.root.bind fun n => n.parent.map Node.storedDigest

/-- The chain of `[String("foo")]` alone: its single node and tree, written
out with the digests the construction produces. -/
def nodeFoo : Node := .mk (sha256 [102, 111, 111]) (.string strFoo) none

/-- The one-node tree holding `String("foo")`. -/
def treeFoo : Tree := ⟨some nodeFoo⟩

/-- The tail node after appending `String("bar")` to `treeFoo`. -/
def nodeFooBar : Node :=
  .mk (sha256 [102, 111, 111] ++ sha256 [98, 97, 114]) (.string strBar) (some nodeFoo)

/-- The two-node tree holding `String("foo")` then `String("bar")`. -/
def treeFooBar : Tree := ⟨some nodeFooBar⟩

/-- The two-scalar demo chain `[String("foo"), String("bar")]` built by
`from_iter`, used to test the node recurrence. -/
def demoTwo : Option Tree := Tree.from_iter [.string strFoo, .string strBar]

/-- Value of a byte string as a base-256 numeral (low byte first), used to
pack digests into `Fin` for the pigeonhole argument. -/
def bytesVal : Bytes → Nat
  | [] => 0
  | b :: bs => b + 256 * bytesVal bs

/-- An injective supply of more than `2^256` ASCII strings: the functions
`Fin 257 → Fin 2` rendered as length-257 strings over `{'a', 'b'}`. -/
def binString (f : Fin 257 → Fin 2) : PyStr :=
  List.ofFn fun i => 97 + (f i).val

/-- SHA-256 of a `binString`, packed into the finite type of 32-byte
digest values (for the pigeonhole argument). -/
def shaFin (f : Fin 257 → Fin 2) : Fin (256 ^ 32) :=
  ⟨bytesVal (sha256 (binString f)) % 256 ^ 32, Nat.mod_lt _ (Nat.pow_pos (by norm_num))⟩

end TreeFoo

namespace TreeFoo

/-! General lemmas about the embedding. -/

theorem length_bytesBE (k n : Nat) : (bytesBE k n).length = k := by
  induction k generalizing n with
  | zero => rfl
  | succ k ih => simp [bytesBE, ih]

theorem lt_of_mem_bytesBE {k n b : Nat} (hb : b ∈ bytesBE k n) : b < 256 := by
  induction k generalizing n with
  | zero => simp [bytesBE] at hb
  | succ k ih =>
    simp only [bytesBE, List.mem_append, List.mem_singleton] at hb
    rcases hb with hb | hb
    · exact ih hb
    · subst hb; exact Nat.mod_lt _ (by norm_num)

theorem length_sha256 (m : Bytes) : (sha256 m).length = 32 := by
  simp [sha256, stateBytes, length_bytesBE]

theorem lt_of_mem_sha256 {m : Bytes} {b : Nat} (hb : b ∈ sha256 m) : b < 256 := by
  simp [sha256, stateBytes, bytesBE, List.mem_append] at hb
  omega

theorem hexChar_injOn {x y : Nat} (hx : x < 16) (hy : y < 16)
    (h : hexChar x = hexChar y) : x = y := by
  unfold hexChar at h
  split at h <;> split at h <;> omega

theorem hexOfBytes_injOn : ∀ {l₁ l₂ : Bytes}, (∀ b ∈ l₁, b < 256) → (∀ b ∈ l₂, b < 256) →
    hexOfBytes l₁ = hexOfBytes l₂ → l₁ = l₂
  | [], [], _, _, _ => rfl
  | [], _ :: _, _, _, h => by simp [hexOfBytes] at h
  | _ :: _, [], _, _, h => by simp [hexOfBytes] at h
  | b₁ :: bs₁, b₂ :: bs₂, h₁, h₂, h => by
    simp only [hexOfBytes, List.cons.injEq] at h
    obtain ⟨e1, e2, e3⟩ := h
    have hb₁ : b₁ < 256 := h₁ b₁ (List.mem_cons_self ..)
    have hb₂ : b₂ < 256 := h₂ b₂ (List.mem_cons_self ..)
    have d1 : b₁ / 16 = b₂ / 16 := hexChar_injOn (by omega) (by omega) e1
    have d2 : b₁ % 16 = b₂ % 16 := hexChar_injOn (by omega) (by omega) e2
    have hb : b₁ = b₂ := by omega
    subst hb
    exact congrArg (b₁ :: ·)
      (hexOfBytes_injOn (fun b hb => h₁ b (List.mem_cons_of_mem _ hb))
        (fun b hb => h₂ b (List.mem_cons_of_mem _ hb)) e3)

theorem encode_cons (c : Nat) (s : PyStr) :
    encode (c :: s) =
      (encodeChar c).bind fun b => (encode s).bind fun bs => some (b ++ bs) := rfl

theorem encode_cons_eq_none (c : Nat) (s : PyStr) :
    encode (c :: s) = none ↔ encodeChar c = none ∨ encode s = none := by
  rw [encode_cons]
  cases hc : encodeChar c <;> cases hs : encode s <;> simp

theorem encode_eq_none_iff (s : PyStr) :
    encode s = none ↔ ∃ c ∈ s, encodeChar c = none := by
  induction s with
  | nil => simp [encode]
  | cons c s ih => rw [encode_cons_eq_none]; simp [ih, List.mem_cons, exists_eq_or_imp]

theorem encodeChar_eq_none_iff (c : Nat) :
    encodeChar c = none ↔ (0xD800 ≤ c ∧ c ≤ 0xDFFF) ∨ 0x110000 ≤ c := by
  unfold encodeChar
  split
  · simp; omega
  · split
    · simp; omega
    · split
      · simp; omega
      · split
        · simp; omega
        · split
          · simp; omega
          · simp; omega

theorem encode_ascii : ∀ {s : PyStr}, (∀ c ∈ s, c < 128) → encode s = some s
  | [], _ => rfl
  | c :: s, h => by
    have hc : c < 128 := h c (List.mem_cons_self ..)
    have hec : encodeChar c = some [c] := by unfold encodeChar; rw [if_pos hc]
    rw [encode_cons, hec, Option.some_bind,
      encode_ascii (fun b hb => h b (List.mem_cons_of_mem _ hb)), Option.some_bind]
    rfl

theorem foldlM_updateStep (items : List PyStr) (acc : Bytes) :
    items.foldlM updateStep acc =
      (items.mapM stringDigest).map fun ds => acc ++ ds.flatten := by
  induction items generalizing acc with
  | nil => rw [List.foldlM_nil, List.mapM_nil]; simp
  | cons s items ih =>
    rw [List.foldlM_cons, List.mapM_cons]
    cases hd : stringDigest s with
    | none =>
      have hstep : updateStep acc s = none := by rw [updateStep, hd]; rfl
      rw [hstep]
      rfl
    | some d =>
      have hstep : updateStep acc s = some (acc ++ d) := by rw [updateStep, hd]; rfl
      rw [hstep]
      cases hm : items.mapM stringDigest with
      | none =>
        show List.foldlM updateStep (acc ++ d) items = none
        rw [ih, hm]
        rfl
      | some ds =>
        show List.foldlM updateStep (acc ++ d) items = some (acc ++ (d ++ ds.flatten))
        rw [ih, hm]
        show some ((acc ++ d) ++ ds.flatten) = some (acc ++ (d ++ ds.flatten))
        rw [List.append_assoc]

theorem array_digest_eq (items : List PyStr) :
    Value.digest (.array items) =
      (items.mapM stringDigest).map fun ds => sha256 ds.flatten := by
  rw [Value.digest, foldlM_updateStep]
  cases items.mapM stringDigest <;> simp [INIT_HASHER]

theorem foldlM_verifyStep (ns : List Node) : ∀ (acc : Bytes) (ds : List Bytes),
    ns.mapM (fun n => n.value.digest) = some ds →
    ns.foldlM verifyStep acc = Except.ok (acc ++ ds.flatten) := by
  induction ns with
  | nil =>
    intro acc ds h
    rw [List.mapM_nil] at h
    simp only [Option.pure_def, Option.some.injEq] at h
    subst h
    rw [List.foldlM_nil, List.flatten_nil, List.append_nil]
    rfl
  | cons n ns ih =>
    intro acc ds h
    rw [List.mapM_cons] at h
    cases hd : n.value.digest with
    | none => rw [hd] at h; simp at h
    | some d =>
      rw [hd] at h
      cases hs : ns.mapM (fun n => n.value.digest) with
      | none => rw [hs] at h; simp at h
      | some ds' =>
        rw [hs] at h
        simp at h
        subst h
        rw [List.foldlM_cons]
        have h1 : verifyStep acc n = Except.ok (acc ++ d) := by rw [verifyStep, hd]
        rw [h1]
        show ns.foldlM verifyStep (acc ++ d) = Except.ok (acc ++ (d :: ds').flatten)
        rw [ih _ _ hs, List.flatten_cons, List.append_assoc]

theorem mapM_value_digest (ns : List Node) :
    (ns.map Node.value).mapM Value.digest = ns.mapM fun n => n.value.digest := by
  induction ns with
  | nil => rfl
  | cons n ns ih =>
    rw [List.map_cons, List.mapM_cons, List.mapM_cons, ih]

theorem append_eq_some {t t' : Tree} {v : Value} (h : t.append v = some t') :
    ∃ d, v.digest = some d ∧ t' = ⟨some (.mk (t.acc ++ d) v t.root)⟩ := by
  unfold Tree.append Node.init at h
  cases hd : v.digest with
  | none => rw [hd] at h; simp at h
  | some d =>
    rw [hd] at h
    simp only [Option.map_some'] at h
    cases h
    exact ⟨d, rfl, rfl⟩

theorem acc_mk (t : Tree) (hs : Bytes) (v : Value) :
    Tree.acc ⟨some (.mk hs v t.root)⟩ = hs := rfl

theorem nodes_mk (t : Tree) (hs : Bytes) (v : Value) :
    Tree.nodes ⟨some (.mk hs v t.root)⟩ = t.nodes ++ [.mk hs v t.root] := by
  cases hr : t.root with
  | none => simp [Tree.nodes, Node.ancestors, hr]
  | some p => simp [Tree.nodes, Node.ancestors, hr]

theorem values_mk (t : Tree) (hs : Bytes) (v : Value) :
    Tree.values ⟨some (.mk hs v t.root)⟩ = t.values ++ [v] := by
  rw [Tree.values, nodes_mk]
  simp [Tree.values, Node.value]

theorem count_mk (t : Tree) (hs : Bytes) (v : Value) :
    Tree.count ⟨some (.mk hs v t.root)⟩ = t.count + 1 := by
  cases hr : t.root with
  | none => simp [Tree.count, Node.count, hr]
  | some p => simp [Tree.count, Node.count, hr]

theorem foldlM_append_inv (vs : List Value) : ∀ (t₀ t : Tree),
    vs.foldlM Tree.append t₀ = some t →
    ∃ ds, vs.mapM Value.digest = some ds ∧ t.acc = t₀.acc ++ ds.flatten ∧
      t.values = t₀.values ++ vs ∧ t.count = t₀.count + vs.length := by
  induction vs with
  | nil =>
    intro t₀ t h
    simp only [List.foldlM_nil] at h
    cases h
    exact ⟨[], rfl, by simp, by simp, by simp⟩
  | cons v vs ih =>
    intro t₀ t h
    rw [List.foldlM_cons] at h
    cases ha : t₀.append v with
    | none => rw [ha] at h; exact Option.noConfusion h
    | some t₁ =>
      rw [ha] at h
      obtain ⟨d, hd, ht₁⟩ := append_eq_some ha
      obtain ⟨ds, hds, hacc, hvals, hcount⟩ := ih t₁ t (by exact h)
      subst ht₁
      refine ⟨d :: ds, by rw [List.mapM_cons, hd, hds]; rfl, ?_, ?_, ?_⟩
      · rw [hacc, acc_mk]
        simp [List.append_assoc]
      · rw [hvals, values_mk]
        simp
      · rw [hcount, count_mk]
        simp only [List.length_cons]
        omega

theorem verify_eq_of_digests {t : Tree} {ds : List Bytes}
    (h : t.values.mapM Value.digest = some ds) :
    t.verify = (match t.root with
      | none => Except.ok ()
      | some n =>
          if hexOfBytes (sha256 ds.flatten) = n.hash then Except.ok ()
          else Except.error PyError.assertionError) := by
  have h' : t.nodes.mapM (fun n => n.value.digest) = some ds := by
    rw [← mapM_value_digest]
    exact h
  show Except.bind (t.nodes.foldlM verifyStep INIT_HASHER) _ = _
  rw [foldlM_verifyStep _ _ _ h']
  show (match t.root with
      | none => Except.ok ()
      | some n =>
          if hexOfBytes (sha256 (INIT_HASHER ++ ds.flatten)) = n.hash then Except.ok ()
          else Except.error PyError.assertionError) = _
  rw [INIT_HASHER, List.nil_append]

/-! Pigeonhole machinery: SHA-256, as a function from arbitrary-length
byte strings to 32-byte digests, provably has collisions. -/

theorem bytesVal_lt : ∀ {l : Bytes}, (∀ b ∈ l, b < 256) → bytesVal l < 256 ^ l.length
  | [], _ => by simp [bytesVal]
  | b :: bs, h => by
    have hb : b < 256 := h b (List.mem_cons_self ..)
    have ih : bytesVal bs < 256 ^ bs.length :=
      bytesVal_lt fun x hx => h x (List.mem_cons_of_mem _ hx)
    simp only [bytesVal, List.length_cons, pow_succ]
    omega

theorem bytesVal_injOn : ∀ {l₁ l₂ : Bytes}, l₁.length = l₂.length →
    (∀ b ∈ l₁, b < 256) → (∀ b ∈ l₂, b < 256) → bytesVal l₁ = bytesVal l₂ → l₁ = l₂
  | [], [], _, _, _, _ => rfl
  | [], _ :: _, hl, _, _, _ => by simp at hl
  | _ :: _, [], hl, _, _, _ => by simp at hl
  | b₁ :: bs₁, b₂ :: bs₂, hl, h₁, h₂, h => by
    simp only [List.length_cons] at hl
    simp only [bytesVal] at h
    have hb₁ : b₁ < 256 := h₁ b₁ (List.mem_cons_self ..)
    have hb₂ : b₂ < 256 := h₂ b₂ (List.mem_cons_self ..)
    have e1 : b₁ = b₂ := by omega
    have e2 : bytesVal bs₁ = bytesVal bs₂ := by omega
    subst e1
    rw [bytesVal_injOn (by omega) (fun x hx => h₁ x (List.mem_cons_of_mem _ hx))
      (fun x hx => h₂ x (List.mem_cons_of_mem _ hx)) e2]

theorem binString_ascii (f : Fin 257 → Fin 2) : ∀ c ∈ binString f, c < 128 := by
  intro c hc
  rw [binString, List.mem_ofFn] at hc
  obtain ⟨i, hi⟩ := hc
  simp only at hi
  have h2 := (f i).isLt
  omega

theorem binString_injective : Function.Injective binString := by
  intro f g h
  simp only [binString] at h
  have h' := List.ofFn_injective h
  funext i
  have h2 := congrFun h' i
  simp only at h2
  have h3 : (f i).val = (g i).val := by omega
  exact Fin.ext h3

theorem sha256_exists_collision :
    ∃ a b : PyStr, a ≠ b ∧ (∀ c ∈ a, c < 128) ∧ (∀ c ∈ b, c < 128) ∧ sha256 a = sha256 b := by
  have hcard : Fintype.card (Fin (256 ^ 32)) < Fintype.card (Fin 257 → Fin 2) := by
    rw [Fintype.card_fun, Fintype.card_fin, Fintype.card_fin, Fintype.card_fin]
    norm_num
  obtain ⟨f, g, hfg, heq⟩ := Fintype.exists_ne_map_eq_of_card_lt shaFin hcard
  have hv : bytesVal (sha256 (binString f)) % 256 ^ 32
      = bytesVal (sha256 (binString g)) % 256 ^ 32 := by
    have h2 := congrArg Fin.val heq
    simpa only [shaFin] using h2
  have hlt1 : bytesVal (sha256 (binString f)) < 256 ^ 32 := by
    have h2 := bytesVal_lt (l := sha256 (binString f)) fun b hb => lt_of_mem_sha256 hb
    rwa [length_sha256] at h2
  have hlt2 : bytesVal (sha256 (binString g)) < 256 ^ 32 := by
    have h2 := bytesVal_lt (l := sha256 (binString g)) fun b hb => lt_of_mem_sha256 hb
    rwa [length_sha256] at h2
  rw [Nat.mod_eq_of_lt hlt1, Nat.mod_eq_of_lt hlt2] at hv
  exact ⟨binString f, binString g, fun hc => hfg (binString_injective hc),
    binString_ascii f, binString_ascii g,
    bytesVal_injOn (by rw [length_sha256, length_sha256])
      (fun b hb => lt_of_mem_sha256 hb) (fun b hb => lt_of_mem_sha256 hb) hv⟩

/-! The claims. -/

/-- C1 (amended): for every node constructed by `append`, the stored
cumulative digest is the finalization of the predecessor's cloned,
*unfinalized* accumulator state extended with the value's digest —
`sha256 (t.acc ++ d)` where `t.acc` is the byte stream the predecessor's
hash object has absorbed (`INIT_HASHER`, the empty stream, when there is
no predecessor).  It is not the hash of the predecessor's *finalized*
digest concatenated with the value digest. -/
theorem node_cumulative_rule (t t' : Tree) (v : Value) (d : Bytes)
    (hd : v.digest = some d) (h : t.append v = some t') :
    t'.root.map Node.storedDigest = some (sha256 (t.acc ++ d)) := by
  obtain ⟨d', hd', ht⟩ := append_eq_some h
  rw [hd] at hd'
  cases hd'
  subst ht
  rfl

/-- Witness for C1 at the concrete chain `foo → bar`. -/
theorem node_cumulative_rule_witness :
    treeFooBar.root.map Node.storedDigest =
      some (sha256 (treeFoo.acc ++ sha256 [98, 97, 114])) :=
  node_cumulative_rule treeFoo treeFooBar (.string strBar) (sha256 [98, 97, 114])
    (by rfl) (by rfl)

/-- C1 counterexample: at the two-scalar demo chain `foo → bar` the stored
tail digest differs from `H(predecessor.finalizedDigest ++ value.digest)`,
the recurrence the claim states (both sides exist). -/
theorem node_cumulative_claim_false :
    tailStoredDigest demoTwo ≠ none ∧
    ((tailParentStoredDigest demoTwo).bind fun hp =>
      (Value.digest (.string strBar)).map fun db => sha256 (hp ++ db)) ≠ none ∧
    tailStoredDigest demoTwo ≠
      ((tailParentStoredDigest demoTwo).bind fun hp =>
        (Value.digest (.string strBar)).map fun db => sha256 (hp ++ db)) := by
  decide

/-- C2: when the from-scratch recomputation over the ordered values is
defined and yields `d`, `verify` succeeds iff the chain is empty (vacuous)
or `d` equals the tail's stored digest, and raises the `AssertionError`
exactly when they differ. -/
theorem verify_ok_iff (t : Tree) (d : Bytes) (hd : t.recomputedDigest = some d) :
    (t.verify = Except.ok () ↔
      (t.root = none ∨ ∃ n, t.root = some n ∧ d = n.storedDigest)) ∧
    (t.verify = Except.error PyError.assertionError ↔
      ∃ n, t.root = some n ∧ d ≠ n.storedDigest) := by
  rw [Tree.recomputedDigest] at hd
  cases hm : t.values.mapM Value.digest with
  | none => rw [hm] at hd; exact Option.noConfusion hd
  | some ds =>
    rw [hm] at hd
    simp only [Option.map_some', Option.some.injEq] at hd
    subst hd
    rw [verify_eq_of_digests hm]
    cases hr : t.root with
    | none => simp
    | some n =>
      have hbridge : (hexOfBytes (sha256 ds.flatten) = n.hash) ↔
          sha256 ds.flatten = n.storedDigest := by
        constructor
        · intro hx
          exact hexOfBytes_injOn (fun b hb => lt_of_mem_sha256 hb)
            (fun b hb => lt_of_mem_sha256 (by exact hb)) hx
        · intro hx
          rw [Node.hash, ← hx]
      by_cases hc : sha256 ds.flatten = n.storedDigest
      · simp [hbridge.mpr hc, hc, Node.hash]
      · simp [hbridge, hc]

/-- Witness for C2 at the one-node chain holding `String("foo")`. -/
theorem verify_ok_iff_witness : treeFoo.verify = Except.ok () :=
  ((verify_ok_iff treeFoo (sha256 (sha256 [102, 111, 111])) (by decide)).1).mpr
    (Or.inr ⟨nodeFoo, rfl, by decide⟩)

/-- C3: the demo chain `[String("foo"), Array([String("bar"),
String("baz")])]` verifies; after mutating the Array's first element in
place to `String("quux")` a second `verify` raises the `AssertionError`,
while the tail's stored digest (its `hash`) is unchanged by the
mutation. -/
theorem tamper_detection_demo :
    demoTree.map Tree.verify = some (Except.ok ()) ∧
    (demoTree.map fun t => (t.mutateTailItem0 strQuux).verify) =
      some (Except.error PyError.assertionError) ∧
    (demoTree.map fun t => (t.mutateTailItem0 strQuux).root.map Node.hash) =
      (demoTree.map fun t => t.root.map Node.hash) :=
  ⟨rfl, rfl, rfl⟩

/-- C4 (amended): the tail digest of `Chain.from_sequence([Scalar(s)])` is
`H(H(s))`: the chain seed is a hash object that has absorbed zero bytes
(`INIT_HASHER = sha256(b"")`), so it contributes no bytes to the digest;
the digest of the empty byte sequence is never mixed in. -/
theorem single_chain_tail_digest (s : PyStr) (d : Bytes)
    (hd : stringDigest s = some d) :
    tailStoredDigest (Tree.from_iter [.string s]) = some (sha256 d) := by
  have hv : Value.digest (.string s) = some d := hd
  rw [Tree.from_iter, List.foldlM_cons]
  have h1 : Tree.append Tree.empty (.string s) =
      some ⟨some (.mk (INIT_HASHER ++ d) (.string s) none)⟩ := by
    rw [Tree.append, Node.init, hv]
    rfl
  rw [h1]
  show some (sha256 (INIT_HASHER ++ d)) = some (sha256 d)
  rw [INIT_HASHER, List.nil_append]

/-- Witness for C4 (amended) at `Scalar("x")`. -/
theorem single_chain_tail_digest_witness :
    tailStoredDigest (Tree.from_iter [.string strX]) =
      some (sha256 (sha256 [120])) :=
  single_chain_tail_digest strX (sha256 [120]) (by rfl)

/-- C4 counterexample: the tail digest of the one-element chain on
`Scalar("x")` is NOT `H(H(empty) ++ H(Scalar("x")))` (both sides exist and
differ): the code's seed absorbs zero bytes rather than the empty-input
digest. -/
theorem single_seed_claim_false :
    tailStoredDigest (Tree.from_iter [.string strX]) ≠ none ∧
    ((stringDigest strX).map fun dx => sha256 (sha256 [] ++ dx)) ≠ none ∧
    tailStoredDigest (Tree.from_iter [.string strX]) ≠
      ((stringDigest strX).map fun dx => sha256 (sha256 [] ++ dx)) := by
  decide

/-- C5: for a chain built solely by `from_iter`/`append`, appending one
more value yields a chain that verifies and whose node count grew by
exactly one. -/
theorem append_monotonic (vs : List Value) (v : Value) (t t' : Tree)
    (h1 : Tree.from_iter vs = some t) (h2 : t.append v = some t') :
    t'.verify = Except.ok () ∧ t'.count = t.count + 1 := by
  obtain ⟨ds, hds, hacc, hvals, hcount⟩ := foldlM_append_inv vs Tree.empty t h1
  obtain ⟨d, hd, ht⟩ := append_eq_some h2
  subst ht
  have hvals' : t.values = vs := by simpa using hvals
  have hacc' : t.acc = ds.flatten := by simpa using hacc
  refine ⟨?_, count_mk ..⟩
  have hone : List.mapM Value.digest [v] = some [d] := by
    rw [List.mapM_cons, hd, List.mapM_nil]
    rfl
  have hm : (Tree.values ⟨some (.mk (t.acc ++ d) v t.root)⟩).mapM Value.digest
      = some (ds ++ [d]) := by
    rw [values_mk, hvals', List.mapM_append, hds, hone]
    rfl
  rw [verify_eq_of_digests hm]
  have hflat : (ds ++ [d]).flatten = t.acc ++ d := by
    rw [List.flatten_append, hacc']
    simp
  show (if hexOfBytes (sha256 ((ds ++ [d]).flatten)) = (Node.mk (t.acc ++ d) v t.root).hash
      then Except.ok () else Except.error PyError.assertionError) = Except.ok ()
  rw [if_pos (show hexOfBytes (sha256 ((ds ++ [d]).flatten))
    = (Node.mk (t.acc ++ d) v t.root).hash from by rw [hflat]; rfl)]

/-- Witness for C5: appending `String("bar")` to the one-node chain on
`String("foo")`. -/
theorem append_monotonic_witness :
    treeFooBar.verify = Except.ok () ∧ treeFooBar.count = treeFoo.count + 1 :=
  append_monotonic [.string strFoo] (.string strBar) treeFoo treeFooBar
    (by rfl) (by rfl)

/-- C6: the digest of a Composite is the flat linear fold
`H(H(item_0) ++ H(item_1) ++ ... ++ H(item_n))`: the accumulator starts
with no input fed (`INIT_HASHER`) and each element digest is fed into it
in element order — no binary Merkle structure. -/
theorem composite_flat_fold (items : List PyStr) (ds : List Bytes)
    (hd : items.mapM stringDigest = some ds) :
    Value.digest (.array items) = some (sha256 ds.flatten) := by
  rw [array_digest_eq, hd]
  rfl

/-- Witness for C6 at `Array([String("bar"), String("baz")])`. -/
theorem composite_flat_fold_witness :
    Value.digest (.array [strBar, strBaz]) =
      some (sha256 ([sha256 [98, 97, 114], sha256 [98, 97, 122]].flatten)) :=
  composite_flat_fold [strBar, strBaz] [sha256 [98, 97, 114], sha256 [98, 97, 122]]
    (by rfl)

/-- C7: constructing a child via `append` never alters the predecessor:
the new tail's parent is exactly the old tail, with stored digest, held
value and predecessor link all unchanged (the child extends a copy of the
predecessor's accumulator). -/
theorem append_preserves_predecessor (t t' : Tree) (v : Value)
    (h : t.append v = some t') :
    t'.root.bind Node.parent = t.root ∧
    (t'.root.bind Node.parent).map Node.storedDigest = t.root.map Node.storedDigest ∧
    (t'.root.bind Node.parent).map Node.value = t.root.map Node.value ∧
    (t'.root.bind Node.parent).bind Node.parent = t.root.bind Node.parent := by
  obtain ⟨d, hd, ht⟩ := append_eq_some h
  subst ht
  exact ⟨rfl, rfl, rfl, rfl⟩

/-- Witness for C7 at the concrete chain `foo → bar`. -/
theorem append_preserves_predecessor_witness :
    treeFooBar.root.bind Node.parent = treeFoo.root ∧
    (treeFooBar.root.bind Node.parent).map Node.storedDigest =
      treeFoo.root.map Node.storedDigest ∧
    (treeFooBar.root.bind Node.parent).map Node.value = treeFoo.root.map Node.value ∧
    (treeFooBar.root.bind Node.parent).bind Node.parent = treeFoo.root.bind Node.parent :=
  append_preserves_predecessor treeFoo treeFooBar (.string strBar) (by rfl)

/-- C8 counterexample: order sensitivity cannot hold for *every* pair of
distinct scalars: by pigeonhole over SHA-256 there exist distinct scalar
contents whose digests collide, and then the two composites `[a, b]` and
`[b, a]` have the same (defined) digest. -/
theorem composite_order_claim_false :
    ∃ a b : PyStr, a ≠ b ∧ Value.digest (.array [a, b]) ≠ none ∧
      Value.digest (.array [a, b]) = Value.digest (.array [b, a]) := by
  obtain ⟨a, b, hab, ha, hb, hsha⟩ := sha256_exists_collision
  have hda : stringDigest a = some (sha256 a) := by
    rw [stringDigest, encode_ascii ha]
    rfl
  have hdb : stringDigest b = some (sha256 b) := by
    rw [stringDigest, encode_ascii hb]
    rfl
  have h2 : ∀ x y : PyStr, stringDigest x = some (sha256 x) →
      stringDigest y = some (sha256 y) →
      Value.digest (.array [x, y]) = some (sha256 (sha256 x ++ (sha256 y ++ []))) := by
    intro x y hx hy
    rw [array_digest_eq, List.mapM_cons, hx, List.mapM_cons, hy, List.mapM_nil]
    rfl
  refine ⟨a, b, hab, ?_, ?_⟩
  · rw [h2 a b hda hdb]
    simp
  · rw [h2 a b hda hdb, h2 b a hdb hda, hsha]

/-- C8 (amended): order sensitivity does hold at the program's demo pair:
for the distinct scalars `"bar"` and `"baz"`,
`digest([Scalar "bar", Scalar "baz"]) ≠ digest([Scalar "baz", Scalar "bar"])`. -/
theorem composite_order_demo :
    Value.digest (.array [strBar, strBaz]) ≠ Value.digest (.array [strBaz, strBar]) := by
  decide

/-- C9: a Scalar's digest raises the encoding error exactly when its
content holds a non-serializable code point — a lone surrogate
(U+D800–U+DFFF) or a value beyond U+10FFFF — and `encodeChar` fails on
exactly those code points, so a well-formed Scalar always digests without
error and nothing is silently coerced. -/
theorem scalar_digest_error_iff (s : PyStr) :
    (Value.digest (.string s) = none ↔
      ∃ c ∈ s, (0xD800 ≤ c ∧ c ≤ 0xDFFF) ∨ 0x110000 ≤ c) ∧
    ∀ c : Nat, encodeChar c = none ↔ (0xD800 ≤ c ∧ c ≤ 0xDFFF) ∨ 0x110000 ≤ c := by
  have h1 : Value.digest (.string s) = none ↔ encode s = none := by
    show stringDigest s = none ↔ _
    rw [stringDigest]
    cases encode s <;> simp
  refine ⟨?_, encodeChar_eq_none_iff⟩
  rw [h1, encode_eq_none_iff]
  constructor
  · rintro ⟨c, hc, hnone⟩
    exact ⟨c, hc, (encodeChar_eq_none_iff c).mp hnone⟩
  · rintro ⟨c, hc, hcond⟩
    exact ⟨c, hc, (encodeChar_eq_none_iff c).mpr hcond⟩

/-- C10: the empty Composite digests to the hash of zero bytes (the fresh
accumulator's finalization), and a chain embedding an empty Composite is
well-defined and verifies. -/
theorem empty_composite_digest :
    Value.digest (.array []) = some (sha256 []) ∧
    (Tree.from_iter [.array []]).map Tree.verify = some (Except.ok ()) :=
  ⟨rfl, rfl⟩

end TreeFoo
